import Mathlib

/-!
Verification of the link-order resolver core of `build.rs`:
the dependency-manifest loader, the archive-name parser, the archive
inventory scanner and the topological sequencer (`toposort`, Kahn's
algorithm), together with the filtering step of `run_bindgen`.

Modelling conventions:
* A Rust `HashMap<String, V>` is modelled as an association list
  `List (String × V)` with distinct keys.  The list order models the
  incidental iteration order of the hash map: iterating the map visits
  the entries in list order.  Re-orderings of the list (permutations)
  model the different iteration orders the same hash map may exhibit.
* `HashMap` entry insertion (`entry(..).or_insert`, `and_modify`,
  `insert`) is modelled as in-place update of the first matching key,
  appending new keys at the end, which realises one admissible
  iteration order.
* Panics (`graph[k]` on a missing key, `unwrap`, integer-underflow of
  `usize` subtraction, the explicit `panic!` of the scanner) are
  modelled as `Option.none`.
* The loop of `toposort` is written with explicit fuel so that it is
  structurally recursive and computable by the kernel; the chosen fuel
  `queue.length + sum of indegrees` strictly dominates the iteration
  count, which decreases by at least one per loop step
  (`kahnLoop_fuel_irrelevant` shows the fuel does not affect the
  result).
-/

/-- A dependency graph: `HashMap<String, Vec<String>>` as an association
list in iteration order.  An entry `(a, ds)` records the edges
`a -> d` for each `d` in `ds`. -/
abbrev Graph := List (String × List String)

/-- Association-list lookup by key (first match); models `HashMap`
lookup / the `Index` operator. -/
def findVal {β : Type} : List (String × β) → String → Option β
  | [], _ => none
  | (k, b) :: rest, v => if k = v then some b else findVal rest v

/-- Replace the value stored at the first occurrence of key `v`; models
in-place mutation of a `HashMap` entry (`*indegree -= 1` etc.). -/
def setVal {β : Type} : List (String × β) → String → β → List (String × β)
  | [], _, _ => []
  | (k, b) :: rest, v, b' => if k = v then (k, b') :: rest else (k, b) :: setVal rest v b'

/-- The keys of an association list are distinct: the `HashMap`
representation invariant. -/
abbrev KeysNodup {β : Type} (l : List (String × β)) : Prop :=
  (l.map Prod.fst).Nodup

/-- `vertex_indegrees.entry(k).and_modify(|d| *d += 1).or_insert(1)`:
bump the count stored at `k`, inserting `1` if `k` is absent. -/
def bumpIndeg : List (String × Nat) → String → List (String × Nat)
  | [], k => [(k, 1)]
  | (k', n) :: rest, k =>
    if k' = k then (k', n + 1) :: rest else (k', n) :: bumpIndeg rest k

/-- `vertex_indegrees.entry(k).or_insert(0)`: insert `0` at `k` if `k`
is absent, keep the stored count otherwise. -/
def ensureKey : List (String × Nat) → String → List (String × Nat)
  | [], k => [(k, 0)]
  | (k', n) :: rest, k =>
    if k' = k then (k', n) :: rest else (k', n) :: ensureKey rest k

/-- First pass of `toposort` (`build.rs` lines 298-306): for every
entry `(depender, dependees)` of the graph, ensure the depender has an
indegree entry and bump the indegree of every dependee. -/
def buildIndegrees (g : Graph) : List (String × Nat) :=
  g.foldl (fun indeg e => e.2.foldl bumpIndeg (ensureKey indeg e.1)) []

/-- Sum of all stored indegrees; used only as a fuel measure. -/
def sumIndeg (indeg : List (String × Nat)) : Nat :=
  (indeg.map Prod.snd).sum

/-- Inner loop of `toposort` (`build.rs` lines 317-323): for every
dependee of the dequeued node, decrement its indegree and enqueue it
at the back of the queue when the indegree reaches zero.  `none`
models a panic: a missing indegree entry (`.get_mut(..).unwrap()`)
or `usize` underflow of `*indegree -= 1`. -/
def processDependees :
    List String → List (String × Nat) → List String →
      Option (List (String × Nat) × List String)
  | [], indeg, queue => some (indeg, queue)
  | d :: ds, indeg, queue =>
    match findVal indeg d with
    | none => none
    | some n =>
      if n = 0 then none
      else
        processDependees ds (setVal indeg d (n - 1))
          (if n - 1 = 0 then queue ++ [d] else queue)

/-- Main loop of `toposort` (`build.rs` lines 314-324): dequeue a node,
append it to the output, and process its dependees.  `none` on a
dequeued node that is not a graph key models the panic of
`&graph[libname]`.  The fuel argument only bounds the number of
iterations; `toposort` supplies enough fuel that the `none` of the
fuel case is unreachable (see `kahnLoop_fuel_irrelevant`). -/
def kahnLoop (g : Graph) :
    Nat → List (String × Nat) → List String → List String → Option (List String)
  | _, _, [], sorted => some sorted
  | 0, _, _ :: _, _ => none
  | fuel + 1, indeg, u :: rest, sorted =>
    match findVal g u with
    | none => none
    | some ds =>
      match processDependees ds indeg rest with
      | none => none
      | some (indeg', queue') => kahnLoop g fuel indeg' queue' (sorted ++ [u])

/-- `toposort` (`build.rs` lines 293-327): Kahn's algorithm.  The
zero-indegree queue is seeded by iterating the indegree map in its
(incidental) iteration order, modelled as insertion order. -/
def toposort (g : Graph) : Option (List String) :=
  let indeg := buildIndegrees g
  let queue := (indeg.filter fun p => p.2 == 0).map Prod.fst
  kahnLoop g (queue.length + sumIndeg indeg) indeg queue []

/-- Models Rust `str::trim`: remove leading and trailing whitespace
characters. -/
def trimD (s : String) : String :=
  ⟨((s.data.dropWhile Char.isWhitespace).reverse.dropWhile Char.isWhitespace).reverse⟩

/-- Split a character list at every tab, keeping empty fields; the
result is always nonempty.  Models Rust `str::split('\t')`. -/
def splitTab : List Char → List (List Char)
  | [] => [[]]
  | c :: cs =>
    let rest := splitTab cs
    if c = '\t' then [] :: rest
    else
      match rest with
      | [] => [[c]]
      | f :: fs => (c :: f) :: fs

/-- One line of `mlir-deps.tsv` (`build.rs` lines 121-127): trim the
line, split on tabs, and take the first column as the depender and the
remaining columns as its dependees.  `split` always yields at least
one field, so the `[]` case is unreachable. -/
def parseLine (line : String) : String × List String :=
  match (splitTab (trimD line).data).map String.mk with
  | [] => ("", [])
  | c :: cs => (c, cs)

/-- `HashMap::insert`: replace the value at an existing key, append a
new key at the end. -/
def insertG : Graph → String → List String → Graph
  | [], k, v => [(k, v)]
  | (k', v') :: rest, k, v =>
    if k' = k then (k', v) :: rest else (k', v') :: insertG rest k v

/-- The manifest loader loop of `build_qwerty_mlir` (`build.rs` lines
118-129): fold every manifest line into the dependency graph. -/
def loadManifest (lines : List String) : Graph :=
  lines.foldl (fun g line => insertG g (parseLine line).1 (parseLine line).2) []

/-- Models Rust `str::starts_with`. -/
def startsWithD (s p : String) : Bool :=
  p.data.isPrefixOf s.data

/-- `lib_names_starting_with` (`build.rs` lines 223-246): keep the
file names that start with the given name part `p`; `none` models the
`panic!` taken whenever no file name matches. -/
def lib_names_starting_with (files : List String) (p : String) : Option (List String) :=
  let libPaths := files.filter fun f => startsWithD f p
  if libPaths.isEmpty then none else some libPaths

/-- Models Rust `str::strip_prefix`: remove a leading occurrence of
`p`, or `none` when `s` does not start with `p`. -/
def stripPrefixOpt (s p : String) : Option String :=
  if p.data.isPrefixOf s.data then some ⟨s.data.drop p.data.length⟩ else none

/-- Models Rust `str::strip_suffix`: remove a trailing occurrence of
`p`, or `none` when `s` does not end with `p`. -/
def stripSuffixOpt (s p : String) : Option String :=
  if p.data.isSuffixOf s.data then
    some ⟨s.data.take (s.data.length - p.data.length)⟩
  else none

/-- `parse_archive_name` (`build.rs` lines 285-291): strip the `lib`
archive name lead-in, then strip the `.a` extension. -/
def parse_archive_name (name : String) : Option String :=
  match stripPrefixOpt name "lib" with
  | some rest => stripSuffixOpt rest ".a"
  | none => none

/-- The MLIR link-directive filter of `run_bindgen` (`build.rs` lines
165-173): scan the toolchain library directory for `libMLIR*` files
(panicking when there are none), parse each into a library name, and
emit, in toposort order, exactly the toposorted names present in that
inventory. -/
def mlirLinkDirectives (g : Graph) (libdirFiles : List String) : Option (List String) :=
  match lib_names_starting_with libdirFiles "libMLIR" with
  | none => none
  | some ns =>
    match toposort g with
    | none => none
    | some cands =>
      some (cands.filter fun c => (ns.filterMap parse_archive_name).contains c)

/-- Index of the first occurrence of `v`, or the length when absent. -/
def idxOf : List String → String → Nat
  | [], _ => 0
  | x :: rest, v => if x = v then 0 else idxOf rest v + 1

/-- `a -> b` is an edge of the graph. -/
def Edge (g : Graph) (a b : String) : Prop :=
  ∃ ds, (a, ds) ∈ g ∧ b ∈ ds

/-- A node of the graph: a map key or an edge target. -/
def isNode (g : Graph) (v : String) : Prop :=
  (∃ ds, (v, ds) ∈ g) ∨ ∃ a ds, (a, ds) ∈ g ∧ v ∈ ds

/-- The graph has no directed cycle. -/
def Acyclic (g : Graph) : Prop :=
  ∀ v, ¬ Relation.TransGen (Edge g) v v

/-- Every edge target is itself a map key. -/
def KeyClosed (g : Graph) : Prop :=
  ∀ a ds b, (a, ds) ∈ g → b ∈ ds → ∃ ds', (b, ds') ∈ g

/-- Executable check for `KeyClosed`. -/
def keyClosedB (g : Graph) : Bool :=
  g.all fun e => e.2.all fun b => (g.map Prod.fst).contains b

/-- Number of nodes: distinct map keys and edge targets. -/
def nodeCount (g : Graph) : Nat :=
  ((g.map Prod.fst ++ (g.map Prod.snd).flatten).dedup).length


/-! ### Association-list lemmas -/

theorem findVal_eq_none {β : Type} (l : List (String × β)) (v : String) :
    findVal l v = none ↔ v ∉ l.map Prod.fst := by
  induction l with
  | nil => simp [findVal]
  | cons e rest ih =>
    obtain ⟨k, b⟩ := e
    by_cases h : k = v
    · subst h; simp [findVal]
    · rw [findVal, if_neg h]
      simp only [List.map_cons, List.mem_cons, not_or, ih]
      constructor
      · exact fun hnn => ⟨fun he => h he.symm, hnn⟩
      · exact fun hh => hh.2

theorem findVal_isSome_of_mem {β : Type} {l : List (String × β)} {v : String}
    (h : v ∈ l.map Prod.fst) : ∃ b, findVal l v = some b := by
  cases hf : findVal l v with
  | none => exact absurd ((findVal_eq_none l v).mp hf) (by simp [h])
  | some b => exact ⟨b, rfl⟩

theorem mem_of_findVal {β : Type} {l : List (String × β)} {v : String} {b : β}
    (h : findVal l v = some b) : (v, b) ∈ l := by
  induction l with
  | nil => simp [findVal] at h
  | cons e rest ih =>
    obtain ⟨k, b'⟩ := e
    by_cases hk : k = v
    · subst hk; simp [findVal] at h; simp [h]
    · simp [findVal, hk] at h
      exact List.mem_cons_of_mem _ (ih h)

theorem mem_keys_of_findVal {β : Type} {l : List (String × β)} {v : String} {b : β}
    (h : findVal l v = some b) : v ∈ l.map Prod.fst := by
  have := mem_of_findVal h
  exact List.mem_map.mpr ⟨(v, b), this, rfl⟩

theorem findVal_of_mem_nodup {β : Type} {l : List (String × β)} {k : String} {b : β}
    (hn : KeysNodup l) (h : (k, b) ∈ l) : findVal l k = some b := by
  induction l with
  | nil => simp at h
  | cons e rest ih =>
    obtain ⟨k', b'⟩ := e
    rcases List.mem_cons.mp h with h1 | h1
    · obtain ⟨rfl, rfl⟩ := Prod.mk.injEq .. ▸ h1
      · simp [findVal]
    · have hk : k' ≠ k := by
        rintro rfl
        have : k' ∈ rest.map Prod.fst := List.mem_map.mpr ⟨(k', b), h1, rfl⟩
        exact (List.nodup_cons.mp hn).1 this
      have hn' : KeysNodup rest := (List.nodup_cons.mp hn).2
      simp [findVal, hk, ih hn' h1]

theorem map_fst_setVal {β : Type} (l : List (String × β)) (k : String) (b : β) :
    (setVal l k b).map Prod.fst = l.map Prod.fst := by
  induction l with
  | nil => rfl
  | cons e rest ih =>
    obtain ⟨k', b'⟩ := e
    by_cases h : k' = k <;> simp [setVal, h, ih]

theorem findVal_setVal_self {β : Type} {l : List (String × β)} {k : String} {n : β}
    (b : β) (h : findVal l k = some n) : findVal (setVal l k b) k = some b := by
  induction l with
  | nil => simp [findVal] at h
  | cons e rest ih =>
    obtain ⟨k', b'⟩ := e
    by_cases hk : k' = k <;> simp [findVal, setVal, hk] at h ⊢
    · exact ih h

theorem findVal_setVal_ne {β : Type} (l : List (String × β)) {k v : String}
    (b : β) (h : v ≠ k) : findVal (setVal l k b) v = findVal l v := by
  induction l with
  | nil => rfl
  | cons e rest ih =>
    obtain ⟨k', b'⟩ := e
    by_cases hk : k' = k
    · subst hk
      have hne : ¬ k' = v := fun hh => h hh.symm
      rw [setVal, if_pos rfl, findVal, if_neg hne, findVal, if_neg hne]
    · rw [setVal, if_neg hk]
      by_cases hv : k' = v
      · rw [findVal, if_pos hv, findVal, if_pos hv]
      · rw [findVal, if_neg hv, findVal, if_neg hv, ih]

theorem sumIndeg_setVal {l : List (String × Nat)} {k : String} {n : Nat}
    (m : Nat) (h : findVal l k = some n) :
    sumIndeg (setVal l k m) + n = sumIndeg l + m := by
  induction l with
  | nil => simp [findVal] at h
  | cons e rest ih =>
    obtain ⟨k', b'⟩ := e
    by_cases hk : k' = k
    · simp [findVal, hk] at h
      subst h
      simp [setVal, hk, sumIndeg]
      omega
    · simp [findVal, hk] at h
      have := ih h
      simp [setVal, hk, sumIndeg] at this ⊢
      omega

theorem findVal_le_sumIndeg {l : List (String × Nat)} {k : String} {n : Nat}
    (h : findVal l k = some n) : n ≤ sumIndeg l := by
  induction l with
  | nil => simp [findVal] at h
  | cons e rest ih =>
    obtain ⟨k', b'⟩ := e
    by_cases hk : k' = k <;> simp [findVal, hk] at h <;> simp [sumIndeg]
    · omega
    · have := ih h
      simp [sumIndeg] at this
      omega

/-! ### Characterisation of the indegree pass -/

/-- Total number of edge instances targeting `v` (with multiplicity). -/
def inCount (g : Graph) (v : String) : Nat :=
  (g.map fun e => e.2.count v).sum

theorem findVal_bumpIndeg (l : List (String × Nat)) (k v : String) :
    findVal (bumpIndeg l k) v =
      if k = v then some ((findVal l k).getD 0 + 1) else findVal l v := by
  induction l with
  | nil => by_cases h : k = v <;> simp [bumpIndeg, findVal, h]
  | cons e rest ih =>
    obtain ⟨k', n⟩ := e
    by_cases hk : k' = k
    · subst hk
      by_cases hv : k' = v <;> simp [bumpIndeg, findVal, hv]
    · by_cases hv : k' = v
      · subst hv
        have : ¬ k = k' := fun h => hk h.symm
        simp [bumpIndeg, findVal, hk, this]
      · simp [bumpIndeg, findVal, hk, hv, ih]

theorem findVal_ensureKey (l : List (String × Nat)) (k v : String) :
    findVal (ensureKey l k) v =
      if k = v then some ((findVal l k).getD 0) else findVal l v := by
  induction l with
  | nil => by_cases h : k = v <;> simp [ensureKey, findVal, h]
  | cons e rest ih =>
    obtain ⟨k', n⟩ := e
    by_cases hk : k' = k
    · subst hk
      by_cases hv : k' = v <;> simp [ensureKey, findVal, hv]
    · by_cases hv : k' = v
      · subst hv
        have : ¬ k = k' := fun h => hk h.symm
        simp [ensureKey, findVal, hk, this]
      · simp [ensureKey, findVal, hk, hv, ih]

theorem mem_keys_bumpIndeg (l : List (String × Nat)) (k v : String) :
    v ∈ (bumpIndeg l k).map Prod.fst ↔ v ∈ l.map Prod.fst ∨ v = k := by
  induction l with
  | nil => simp [bumpIndeg]
  | cons e rest ih =>
    obtain ⟨k', n⟩ := e
    by_cases hk : k' = k
    · subst hk; simp [bumpIndeg]
      intro h; exact Or.inl h
    · simp [bumpIndeg, hk, ih, or_assoc]

theorem mem_keys_ensureKey (l : List (String × Nat)) (k v : String) :
    v ∈ (ensureKey l k).map Prod.fst ↔ v ∈ l.map Prod.fst ∨ v = k := by
  induction l with
  | nil => simp [ensureKey]
  | cons e rest ih =>
    obtain ⟨k', n⟩ := e
    by_cases hk : k' = k
    · subst hk; simp [ensureKey]
      intro h; exact Or.inl h
    · simp [ensureKey, hk, ih, or_assoc]

theorem keysNodup_bumpIndeg {l : List (String × Nat)} (k : String)
    (h : KeysNodup l) : KeysNodup (bumpIndeg l k) := by
  induction l with
  | nil => simp [bumpIndeg, KeysNodup]
  | cons e rest ih =>
    obtain ⟨k', n⟩ := e
    have h1 := (List.nodup_cons.mp h).1
    have h2 := (List.nodup_cons.mp h).2
    by_cases hk : k' = k
    · subst hk
      simpa [bumpIndeg, KeysNodup] using h
    · have := ih h2
      simp only [KeysNodup, bumpIndeg, if_neg hk, List.map_cons, List.nodup_cons]
      refine ⟨fun hmem => ?_, this⟩
      rcases (mem_keys_bumpIndeg rest k k').mp hmem with hm | hm
      · exact h1 hm
      · exact hk hm

theorem keysNodup_ensureKey {l : List (String × Nat)} (k : String)
    (h : KeysNodup l) : KeysNodup (ensureKey l k) := by
  induction l with
  | nil => simp [ensureKey, KeysNodup]
  | cons e rest ih =>
    obtain ⟨k', n⟩ := e
    have h1 := (List.nodup_cons.mp h).1
    have h2 := (List.nodup_cons.mp h).2
    by_cases hk : k' = k
    · subst hk
      simpa [ensureKey, KeysNodup] using h
    · have := ih h2
      simp only [KeysNodup, ensureKey, if_neg hk, List.map_cons, List.nodup_cons]
      refine ⟨fun hmem => ?_, this⟩
      rcases (mem_keys_ensureKey rest k k').mp hmem with hm | hm
      · exact h1 hm
      · exact hk hm

theorem inCount_cons (e : String × List String) (g : Graph) (v : String) :
    inCount (e :: g) v = e.2.count v + inCount g v := by
  simp [inCount]

theorem inCount_eq_zero {g : Graph} {v : String}
    (h : ∀ e ∈ g, v ∉ e.2) : inCount g v = 0 := by
  induction g with
  | nil => rfl
  | cons e g' ih =>
    rw [inCount_cons]
    have h1 : v ∉ e.2 := h e (List.mem_cons_self ..)
    have h2 := ih fun e' he' => h e' (List.mem_cons_of_mem _ he')
    simp [List.count_eq_zero.mpr h1, h2]

theorem findVal_foldl_bump (ds : List String) :
    ∀ (acc : List (String × Nat)) (v : String),
      findVal (ds.foldl bumpIndeg acc) v =
        if v ∈ ds then some ((findVal acc v).getD 0 + ds.count v)
        else findVal acc v := by
  induction ds with
  | nil => intro acc v; simp
  | cons d ds ih =>
    intro acc v
    rw [List.foldl_cons, ih]
    by_cases hv : v = d
    · subst hv
      rw [findVal_bumpIndeg, if_pos rfl]
      by_cases hmem : v ∈ ds
      · simp only [if_pos hmem, if_pos (List.mem_cons_self ..), Option.getD_some,
          List.count_cons_self]
        congr 1
        omega
      · simp only [if_neg hmem, findVal_bumpIndeg, if_pos rfl,
          if_pos (List.mem_cons_self ..), List.count_cons_self,
          List.count_eq_zero.mpr hmem]
    · have hd : ¬ d = v := fun h => hv h.symm
      rw [findVal_bumpIndeg, if_neg hd]
      by_cases hmem : v ∈ ds
      · have hthis : v ∈ d :: ds := List.mem_cons_of_mem _ hmem
        simp only [if_pos hmem, if_pos hthis, List.count_cons]
        simp [hd]
      · have hthis : v ∉ d :: ds := by simp [hv, hmem]
        rw [if_neg hmem, if_neg hthis]

theorem getD_foldl_bump (ds : List String) (acc : List (String × Nat)) (v : String) :
    (findVal (ds.foldl bumpIndeg acc) v).getD 0 =
      (findVal acc v).getD 0 + ds.count v := by
  rw [findVal_foldl_bump]
  by_cases h : v ∈ ds
  · simp [h]
  · simp [h, List.count_eq_zero.mpr h]

theorem isSome_foldl_bump (ds : List String) (acc : List (String × Nat)) (v : String) :
    (findVal (ds.foldl bumpIndeg acc) v).isSome =
      ((findVal acc v).isSome || decide (v ∈ ds)) := by
  rw [findVal_foldl_bump]
  by_cases h : v ∈ ds <;> simp [h]

theorem getD_ensureKey (l : List (String × Nat)) (k v : String) :
    (findVal (ensureKey l k) v).getD 0 = (findVal l v).getD 0 := by
  rw [findVal_ensureKey]
  by_cases h : k = v
  · subst h; simp
  · simp [h]

theorem isSome_ensureKey (l : List (String × Nat)) (k v : String) :
    (findVal (ensureKey l k) v).isSome =
      ((findVal l v).isSome || decide (k = v)) := by
  rw [findVal_ensureKey]
  by_cases h : k = v <;> simp [h]

theorem findVal_buildIndegrees_aux (g : Graph) :
    ∀ (acc : List (String × Nat)) (v : String),
      findVal (g.foldl (fun indeg e => e.2.foldl bumpIndeg (ensureKey indeg e.1)) acc) v =
        if ∃ e ∈ g, e.1 = v ∨ v ∈ e.2 then
          some ((findVal acc v).getD 0 + inCount g v)
        else findVal acc v := by
  induction g with
  | nil => intro acc v; simp
  | cons e g' ih =>
    intro acc v
    rw [List.foldl_cons, ih]
    have hgetD : (findVal (e.2.foldl bumpIndeg (ensureKey acc e.1)) v).getD 0 =
        (findVal acc v).getD 0 + e.2.count v := by
      rw [getD_foldl_bump, getD_ensureKey]
    by_cases hg' : ∃ e' ∈ g', e'.1 = v ∨ v ∈ e'.2
    · have hcond : ∃ e' ∈ e :: g', e'.1 = v ∨ v ∈ e'.2 := by
        obtain ⟨e', he', hp⟩ := hg'
        exact ⟨e', List.mem_cons_of_mem _ he', hp⟩
      rw [if_pos hg', if_pos hcond, hgetD, inCount_cons]
      congr 1
      omega
    · have hz : inCount g' v = 0 := by
        refine inCount_eq_zero fun e' he' hv => hg' ⟨e', he', Or.inr hv⟩
      by_cases he : e.1 = v ∨ v ∈ e.2
      · have hcond : ∃ e' ∈ e :: g', e'.1 = v ∨ v ∈ e'.2 :=
          ⟨e, List.mem_cons_self .., he⟩
        rw [if_neg hg', if_pos hcond, inCount_cons, hz]
        have hsome : (findVal (e.2.foldl bumpIndeg (ensureKey acc e.1)) v).isSome := by
          rw [isSome_foldl_bump, isSome_ensureKey]
          rcases he with he | he <;> simp [he]
        obtain ⟨n, hn⟩ := Option.isSome_iff_exists.mp hsome
        rw [hn]
        rw [hn] at hgetD
        simp only [Option.getD_some] at hgetD
        simp [hgetD]
      · have hcond : ¬ ∃ e' ∈ e :: g', e'.1 = v ∨ v ∈ e'.2 := by
          rintro ⟨e', he', hp⟩
          rcases List.mem_cons.mp he' with rfl | hm
          · exact he hp
          · exact hg' ⟨e', hm, hp⟩
        rw [if_neg hg', if_neg hcond, findVal_foldl_bump]
        have h1 : v ∉ e.2 := fun hv => he (Or.inr hv)
        have h2 : ¬ e.1 = v := fun hv => he (Or.inl hv)
        rw [if_neg h1, findVal_ensureKey, if_neg h2]

theorem findVal_buildIndegrees (g : Graph) (v : String) :
    findVal (buildIndegrees g) v =
      if ∃ e ∈ g, e.1 = v ∨ v ∈ e.2 then some (inCount g v) else none := by
  rw [buildIndegrees, findVal_buildIndegrees_aux]
  simp [findVal]

theorem isNode_iff (g : Graph) (v : String) :
    isNode g v ↔ ∃ e ∈ g, e.1 = v ∨ v ∈ e.2 := by
  constructor
  · rintro (⟨ds, h⟩ | ⟨a, ds, h, hv⟩)
    · exact ⟨(v, ds), h, Or.inl rfl⟩
    · exact ⟨(a, ds), h, Or.inr hv⟩
  · rintro ⟨⟨a, ds⟩, he, (h | hv)⟩
    · exact Or.inl ⟨ds, h ▸ he⟩
    · exact Or.inr ⟨a, ds, he, hv⟩

theorem keysNodup_foldl_bump (ds : List String) :
    ∀ acc : List (String × Nat), KeysNodup acc →
      KeysNodup (ds.foldl bumpIndeg acc) := by
  induction ds with
  | nil => intro acc h; exact h
  | cons d ds ih =>
    intro acc h
    exact ih _ (keysNodup_bumpIndeg d h)

theorem keysNodup_buildIndegrees (g : Graph) : KeysNodup (buildIndegrees g) := by
  suffices h : ∀ acc : List (String × Nat), KeysNodup acc →
      KeysNodup (g.foldl (fun indeg e => e.2.foldl bumpIndeg (ensureKey indeg e.1)) acc) by
    exact h [] (by simp [KeysNodup])
  induction g with
  | nil => intro acc h; exact h
  | cons e g' ih =>
    intro acc h
    exact ih _ (keysNodup_foldl_bump e.2 _ (keysNodup_ensureKey e.1 h))

theorem mem_keys_buildIndegrees (g : Graph) (v : String) :
    v ∈ (buildIndegrees g).map Prod.fst ↔ isNode g v := by
  rw [isNode_iff]
  constructor
  · intro h
    by_contra hc
    have := (findVal_buildIndegrees g v).trans (if_neg hc)
    exact (findVal_eq_none _ v).mp this h
  · intro h
    obtain ⟨n, hn⟩ : ∃ n, findVal (buildIndegrees g) v = some n :=
      ⟨inCount g v, (findVal_buildIndegrees g v).trans (if_pos h)⟩
    exact mem_keys_of_findVal hn

/-! ### Remaining-indegree accounting -/

/-- Number of edge instances targeting `v` whose source has not yet
been popped (sources outside `s`).  The stored indegree of every node
equals this quantity throughout the main loop. -/
def remCount (g : Graph) (s : List String) (v : String) : Nat :=
  ((g.filter fun e => !(decide (e.1 ∈ s))).map fun e => e.2.count v).sum

theorem remCount_nil (g : Graph) (v : String) :
    remCount g [] v = inCount g v := by
  simp [remCount, inCount]

theorem remCount_cons (e : String × List String) (g : Graph)
    (s : List String) (v : String) :
    remCount (e :: g) s v =
      (if e.1 ∈ s then 0 else e.2.count v) + remCount g s v := by
  by_cases h : e.1 ∈ s <;> simp [remCount, List.filter_cons, h]

theorem remCount_append_of_ne {g : Graph} {u : String} (s : List String) (v : String)
    (h : ∀ e ∈ g, e.1 ≠ u) : remCount g (s ++ [u]) v = remCount g s v := by
  induction g with
  | nil => rfl
  | cons e g' ih =>
    have h1 : e.1 ≠ u := h e (List.mem_cons_self ..)
    have h2 := ih fun e' he' => h e' (List.mem_cons_of_mem _ he')
    rw [remCount_cons, remCount_cons, h2]
    have : e.1 ∈ s ++ [u] ↔ e.1 ∈ s := by simp [h1]
    by_cases hs : e.1 ∈ s
    · rw [if_pos hs, if_pos (this.mpr hs)]
    · rw [if_neg hs, if_neg (fun hc => hs (this.mp hc))]

theorem remCount_append {g : Graph} {u : String} {ds : List String}
    (s : List String) (v : String) (hn : KeysNodup g) (hu : (u, ds) ∈ g)
    (hs : u ∉ s) :
    remCount g (s ++ [u]) v + ds.count v = remCount g s v := by
  induction g with
  | nil => simp at hu
  | cons e g' ih =>
    have hnd1 := (List.nodup_cons.mp hn).1
    have hnd2 : KeysNodup g' := (List.nodup_cons.mp hn).2
    by_cases he : e.1 = u
    · have hkeys : ∀ e' ∈ g', e'.1 ≠ u := by
        intro e' he' hc
        exact hnd1 (he ▸ hc ▸ List.mem_map.mpr ⟨e', he', rfl⟩)
      have heds : e.2 = ds := by
        rcases List.mem_cons.mp hu with h | h
        · rw [← h]
        · exact absurd rfl (hkeys _ h)
      rw [remCount_cons, remCount_cons, remCount_append_of_ne s v hkeys]
      rw [if_pos (by simp [he]), if_neg (he ▸ hs), heds]
      omega
    · have hu' : (u, ds) ∈ g' := by
        rcases List.mem_cons.mp hu with h | h
        · exact absurd (by rw [← h]) he
        · exact h
      rw [remCount_cons, remCount_cons]
      have hiff : e.1 ∈ s ++ [u] ↔ e.1 ∈ s := by simp [he]
      by_cases hs' : e.1 ∈ s
      · rw [if_pos hs', if_pos (hiff.mpr hs')]
        simpa using ih hnd2 hu'
      · rw [if_neg hs', if_neg (fun hc => hs' (hiff.mp hc))]
        have := ih hnd2 hu'
        omega

theorem remCount_le {g : Graph} {u : String} {ds : List String}
    (s : List String) (v : String) (hn : KeysNodup g) (hu : (u, ds) ∈ g)
    (hs : u ∉ s) : ds.count v ≤ remCount g s v := by
  have := remCount_append s v hn hu hs
  omega

theorem remCount_eq_zero_elim {g : Graph} {s : List String} {v : String}
    (h : remCount g s v = 0) {a : String} {ds : List String}
    (ha : (a, ds) ∈ g) (hv : v ∈ ds) : a ∈ s := by
  induction g with
  | nil => simp at ha
  | cons e g' ih =>
    rw [remCount_cons] at h
    rcases List.mem_cons.mp ha with hh | hh
    · subst hh
      by_contra hc
      rw [if_neg hc] at h
      have h' : ds.count v + remCount g' s v = 0 := h
      have : ds.count v ≠ 0 := by
        simpa [List.count_eq_zero] using hv
      omega
    · exact ih (by omega) hh

theorem remCount_pos_elim {g : Graph} {s : List String} {v : String}
    (h : remCount g s v ≠ 0) :
    ∃ a ds, (a, ds) ∈ g ∧ a ∉ s ∧ v ∈ ds := by
  induction g with
  | nil => simp [remCount] at h
  | cons e g' ih =>
    rw [remCount_cons] at h
    by_cases hs : e.1 ∈ s
    · rw [if_pos hs, Nat.zero_add] at h
      obtain ⟨a, ds, h1, h2, h3⟩ := ih h
      exact ⟨a, ds, List.mem_cons_of_mem _ h1, h2, h3⟩
    · rw [if_neg hs] at h
      by_cases hc : e.2.count v = 0
      · rw [hc, Nat.zero_add] at h
        obtain ⟨a, ds, h1, h2, h3⟩ := ih h
        exact ⟨a, ds, List.mem_cons_of_mem _ h1, h2, h3⟩
      · refine ⟨e.1, e.2, List.mem_cons_self .., hs, ?_⟩
        exact List.count_pos_iff.mp (Nat.pos_of_ne_zero hc)

/-! ### Properties of the inner decrement loop -/

theorem processDependees_cons (d : String) (ds : List String)
    (indeg : List (String × Nat)) (queue : List String) :
    processDependees (d :: ds) indeg queue =
      match findVal indeg d with
      | none => none
      | some n =>
        if n = 0 then none
        else
          processDependees ds (setVal indeg d (n - 1))
            (if n - 1 = 0 then queue ++ [d] else queue) := rfl

theorem pd_keys {ds : List String} :
    ∀ {indeg queue indeg' queue'},
      processDependees ds indeg queue = some (indeg', queue') →
      indeg'.map Prod.fst = indeg.map Prod.fst := by
  induction ds with
  | nil =>
    intro indeg queue indeg' queue' h
    simp [processDependees] at h
    rw [h.1]
  | cons d ds ih =>
    intro indeg queue indeg' queue' h
    rw [processDependees_cons] at h
    cases hfd : findVal indeg d with
    | none => rw [hfd] at h; exact Option.noConfusion h
    | some n =>
      rw [hfd] at h
      simp only [] at h
      by_cases hn : n = 0
      · rw [if_pos hn] at h; exact Option.noConfusion h
      · rw [if_neg hn] at h
        rw [ih h, map_fst_setVal]

theorem pd_counts {ds : List String} :
    ∀ {indeg queue indeg' queue'},
      processDependees ds indeg queue = some (indeg', queue') →
      ∀ v n, findVal indeg v = some n →
        ds.count v ≤ n ∧ findVal indeg' v = some (n - ds.count v) := by
  induction ds with
  | nil =>
    intro indeg queue indeg' queue' h v n hv
    simp [processDependees] at h
    obtain ⟨h1, h2⟩ := h
    subst h1
    simp [hv]
  | cons d ds ih =>
    intro indeg queue indeg' queue' h v n hv
    rw [processDependees_cons] at h
    cases hfd : findVal indeg d with
    | none => rw [hfd] at h; exact Option.noConfusion h
    | some m =>
      rw [hfd] at h
      simp only [] at h
      by_cases hm : m = 0
      · rw [if_pos hm] at h; exact Option.noConfusion h
      · rw [if_neg hm] at h
        by_cases hvd : v = d
        · subst hvd
          have hnm : n = m := by
            have := hv.symm.trans hfd
            exact Option.some.inj this
          subst hnm
          have h1 : findVal (setVal indeg v (n - 1)) v = some (n - 1) :=
            findVal_setVal_self _ hv
          have h2 := ih h v (n - 1) h1
          rw [List.count_cons_self]
          refine ⟨by omega, ?_⟩
          rw [h2.2]
          congr 1
          omega
        · have h1 : findVal (setVal indeg d (m - 1)) v = some n := by
            rw [findVal_setVal_ne _ _ hvd]; exact hv
          have h2 := ih h v n h1
          rw [List.count_cons_of_ne hvd]
          exact h2

theorem pd_none {ds : List String} :
    ∀ {indeg queue indeg' queue'},
      processDependees ds indeg queue = some (indeg', queue') →
      ∀ v, findVal indeg v = none → findVal indeg' v = none := by
  induction ds with
  | nil =>
    intro indeg queue indeg' queue' h v hv
    simp [processDependees] at h
    obtain ⟨h1, h2⟩ := h
    subst h1
    exact hv
  | cons d ds ih =>
    intro indeg queue indeg' queue' h v hv
    rw [processDependees_cons] at h
    cases hfd : findVal indeg d with
    | none => rw [hfd] at h; exact Option.noConfusion h
    | some m =>
      rw [hfd] at h
      simp only [] at h
      by_cases hm : m = 0
      · rw [if_pos hm] at h; exact Option.noConfusion h
      · rw [if_neg hm] at h
        have hvd : v ≠ d := by
          rintro rfl
          rw [hv] at hfd
          exact Option.noConfusion hfd
        refine ih h v ?_
        rw [findVal_setVal_ne _ _ hvd]
        exact hv

theorem pd_measure {ds : List String} :
    ∀ {indeg queue indeg' queue'},
      processDependees ds indeg queue = some (indeg', queue') →
      queue'.length + sumIndeg indeg' ≤ queue.length + sumIndeg indeg := by
  induction ds with
  | nil =>
    intro indeg queue indeg' queue' h
    simp [processDependees] at h
    obtain ⟨h1, h2⟩ := h
    subst h1; subst h2
    exact le_refl _
  | cons d ds ih =>
    intro indeg queue indeg' queue' h
    rw [processDependees_cons] at h
    cases hfd : findVal indeg d with
    | none => rw [hfd] at h; exact Option.noConfusion h
    | some m =>
      rw [hfd] at h
      simp only [] at h
      by_cases hm : m = 0
      · rw [if_pos hm] at h; exact Option.noConfusion h
      · rw [if_neg hm] at h
        have hsum : sumIndeg (setVal indeg d (m - 1)) + m = sumIndeg indeg + (m - 1) :=
          sumIndeg_setVal _ hfd
        have hmle := findVal_le_sumIndeg hfd
        have hrec := ih h
        by_cases hm1 : m - 1 = 0
        · rw [if_pos hm1] at hrec
          simp at hrec
          omega
        · rw [if_neg hm1] at hrec
          omega

theorem pd_total {ds : List String} :
    ∀ {indeg : List (String × Nat)} (queue : List String),
      (∀ d ∈ ds, ∃ n, findVal indeg d = some n ∧ ds.count d ≤ n) →
      ∃ out, processDependees ds indeg queue = some out := by
  induction ds with
  | nil => intro indeg queue _; exact ⟨(indeg, queue), rfl⟩
  | cons d ds ih =>
    intro indeg queue H
    obtain ⟨n, hfd, hle⟩ := H d (List.mem_cons_self ..)
    rw [List.count_cons_self] at hle
    have hn : n ≠ 0 := by omega
    have Hrec : ∀ d' ∈ ds, ∃ m, findVal (setVal indeg d (n - 1)) d' = some m ∧
        ds.count d' ≤ m := by
      intro d' hd'
      by_cases hdd : d' = d
      · subst hdd
        exact ⟨n - 1, findVal_setVal_self _ hfd, by omega⟩
      · obtain ⟨m, hm1, hm2⟩ := H d' (List.mem_cons_of_mem _ hd')
        refine ⟨m, ?_, ?_⟩
        · rw [findVal_setVal_ne _ _ hdd]; exact hm1
        · rw [List.count_cons_of_ne hdd] at hm2; exact hm2
    obtain ⟨out, hout⟩ := ih (if n - 1 = 0 then queue ++ [d] else queue) Hrec
    refine ⟨out, ?_⟩
    rw [processDependees_cons, hfd]
    simp only []
    rw [if_neg hn]
    exact hout

theorem pd_queue {ds : List String} :
    ∀ {indeg queue indeg' queue'},
      processDependees ds indeg queue = some (indeg', queue') →
      ∃ newly, queue' = queue ++ newly ∧ newly.Nodup ∧
        ∀ v, v ∈ newly ↔ (findVal indeg v = some (ds.count v) ∧ 0 < ds.count v) := by
  induction ds with
  | nil =>
    intro indeg queue indeg' queue' h
    simp [processDependees] at h
    obtain ⟨h1, h2⟩ := h
    subst h2
    exact ⟨[], by simp, List.nodup_nil, by simp⟩
  | cons d ds ih =>
    intro indeg queue indeg' queue' h
    rw [processDependees_cons] at h
    cases hfd : findVal indeg d with
    | none => rw [hfd] at h; exact Option.noConfusion h
    | some m =>
      rw [hfd] at h
      simp only [] at h
      by_cases hm : m = 0
      · rw [if_pos hm] at h; exact Option.noConfusion h
      · rw [if_neg hm] at h
        obtain ⟨newly', hq', hnd', hch'⟩ := ih h
        by_cases hm1 : m - 1 = 0
        · rw [if_pos hm1] at hq'
          have hm1' : m = 1 := by omega
          subst hm1'
          have hd0 : findVal (setVal indeg d (1 - 1)) d = some 0 :=
            findVal_setVal_self _ hfd
          have hdc : ds.count d = 0 := by
            have := (pd_counts h d 0 hd0).1
            omega
          have hdnotin : d ∉ newly' := by
            intro hmem
            have := ((hch' d).mp hmem).2
            have h1 := ((hch' d).mp hmem).1
            rw [hd0] at h1
            have : ds.count d = 0 := (Option.some.inj h1).symm
            omega
          refine ⟨d :: newly', ?_, List.nodup_cons.mpr ⟨hdnotin, hnd'⟩, ?_⟩
          · rw [hq', List.append_assoc]
            rfl
          · intro v
            by_cases hvd : v = d
            · subst hvd
              simp only [List.mem_cons, true_or, true_iff]
              rw [List.count_cons_self, hdc]
              exact ⟨hfd, by omega⟩
            · have hv1 : v ∈ d :: newly' ↔ v ∈ newly' := by simp [hvd]
              rw [hv1, hch' v, findVal_setVal_ne _ _ hvd,
                List.count_cons_of_ne hvd]
        · rw [if_neg hm1] at hq'
          refine ⟨newly', hq', hnd', ?_⟩
          intro v
          by_cases hvd : v = d
          · subst hvd
            rw [hch' v, findVal_setVal_self _ hfd]
            rw [List.count_cons_self, hfd]
            constructor
            · rintro ⟨h1, h2⟩
              have h3 : m - 1 = ds.count v := Option.some.inj h1
              exact ⟨congrArg some (by omega), by omega⟩
            · rintro ⟨h1, h2⟩
              have h3 : m = ds.count v + 1 := Option.some.inj h1
              exact ⟨congrArg some (by omega), by omega⟩
          · rw [hch' v, findVal_setVal_ne _ _ hvd, List.count_cons_of_ne hvd]

/-! ### The loop invariant of the main Kahn loop -/

/-- State invariant of the main loop of `toposort`, relating the
indegree map, the pending queue and the already-emitted `sorted`
output to the graph. -/
structure KahnInv (g : Graph) (indeg : List (String × Nat))
    (queue sorted : List String) : Prop where
  keys_eq : indeg.map Prod.fst = (buildIndegrees g).map Prod.fst
  lookup_eq : ∀ v n, findVal indeg v = some n → n = remCount g sorted v
  queue_nodup : queue.Nodup
  sorted_nodup : sorted.Nodup
  disj : ∀ v ∈ queue, v ∉ sorted
  queue_zero : ∀ v ∈ queue, remCount g sorted v = 0
  queue_node : ∀ v ∈ queue, isNode g v
  sorted_node : ∀ v ∈ sorted, isNode g v
  sorted_zero : ∀ v ∈ sorted, remCount g sorted v = 0
  zero_captured : ∀ v, isNode g v → remCount g sorted v = 0 → v ∈ sorted ∨ v ∈ queue
  edge_before : ∀ a ds b, (a, ds) ∈ g → b ∈ ds → b ∈ sorted → [a, b].Sublist sorted

theorem inv_lookup_node {g : Graph} {indeg : List (String × Nat)}
    {queue sorted : List String} (inv : KahnInv g indeg queue sorted)
    {v : String} (hv : isNode g v) :
    findVal indeg v = some (remCount g sorted v) := by
  have hmem : v ∈ indeg.map Prod.fst := by
    rw [inv.keys_eq]
    exact (mem_keys_buildIndegrees g v).mpr hv
  obtain ⟨n, hn⟩ := findVal_isSome_of_mem hmem
  rw [hn, inv.lookup_eq v n hn]

theorem inv_node_of_findVal {g : Graph} {indeg : List (String × Nat)}
    {queue sorted : List String} (inv : KahnInv g indeg queue sorted)
    {v : String} {n : Nat} (h : findVal indeg v = some n) : isNode g v := by
  have := mem_keys_of_findVal h
  rw [inv.keys_eq] at this
  exact (mem_keys_buildIndegrees g v).mp this

/-- One iteration of the main loop preserves the invariant. -/
theorem inv_step {g : Graph} (hg : KeysNodup g)
    {indeg indeg' : List (String × Nat)} {rest queue' sorted : List String}
    {u : String} {ds : List String}
    (inv : KahnInv g indeg (u :: rest) sorted)
    (hfg : findVal g u = some ds)
    (hpd : processDependees ds indeg rest = some (indeg', queue')) :
    KahnInv g indeg' queue' (sorted ++ [u]) := by
  have hmem_u : (u, ds) ∈ g := mem_of_findVal hfg
  have hu_node : isNode g u := Or.inl ⟨ds, hmem_u⟩
  have hu_notin : u ∉ sorted := inv.disj u (List.mem_cons_self ..)
  have hcnt_u : remCount g sorted u = 0 := inv.queue_zero u (List.mem_cons_self ..)
  have hrc : ∀ v, remCount g (sorted ++ [u]) v + ds.count v = remCount g sorted v :=
    fun v => remCount_append sorted v hg hmem_u hu_notin
  obtain ⟨newly, hq, hnewly_nd, hch⟩ := pd_queue hpd
  have hrest_zero : ∀ v ∈ rest, findVal indeg v = some 0 := by
    intro v hv
    have h1 := inv_lookup_node inv (inv.queue_node v (List.mem_cons_of_mem _ hv))
    rw [inv.queue_zero v (List.mem_cons_of_mem _ hv)] at h1
    exact h1
  have hnewly_pos : ∀ v ∈ newly, remCount g sorted v = ds.count v ∧ 0 < ds.count v := by
    intro v hv
    obtain ⟨h1, h2⟩ := (hch v).mp hv
    exact ⟨(inv.lookup_eq v _ h1).symm, h2⟩
  have hrest_count : ∀ v ∈ rest, ds.count v = 0 := by
    intro v hv
    have := (pd_counts hpd v 0 (hrest_zero v hv)).1
    omega
  constructor
  case keys_eq => rw [pd_keys hpd, inv.keys_eq]
  case lookup_eq =>
    intro v n' hv
    cases hfv : findVal indeg v with
    | none => rw [pd_none hpd v hfv] at hv; exact Option.noConfusion hv
    | some n =>
      obtain ⟨hle, heq⟩ := pd_counts hpd v n hfv
      rw [heq] at hv
      have h1 : n' = n - ds.count v := (Option.some.inj hv).symm
      have h2 : n = remCount g sorted v := inv.lookup_eq v n hfv
      have := hrc v
      omega
  case queue_nodup =>
    rw [hq, List.nodup_append]
    refine ⟨(List.nodup_cons.mp inv.queue_nodup).2, hnewly_nd, ?_⟩
    intro v hv1 hv2
    have h1 := hrest_zero v hv1
    obtain ⟨h2, h3⟩ := (hch v).mp hv2
    rw [h1] at h2
    have : ds.count v = 0 := (Option.some.inj h2).symm
    omega
  case sorted_nodup =>
    rw [List.nodup_append]
    exact ⟨inv.sorted_nodup, List.nodup_singleton u,
      fun v hv1 hv2 => hu_notin ((List.mem_singleton.mp hv2) ▸ hv1)⟩
  case disj =>
    intro v hv
    rw [hq] at hv
    simp only [List.mem_append, List.mem_singleton]
    rcases List.mem_append.mp hv with hv | hv
    · push_neg
      refine ⟨inv.disj v (List.mem_cons_of_mem _ hv), ?_⟩
      rintro rfl
      exact (List.nodup_cons.mp inv.queue_nodup).1 hv
    · obtain ⟨h1, h2⟩ := hnewly_pos v hv
      push_neg
      constructor
      · intro hvs
        rw [inv.sorted_zero v hvs] at h1
        omega
      · rintro rfl
        rw [hcnt_u] at h1
        omega
  case queue_zero =>
    intro v hv
    rw [hq] at hv
    rcases List.mem_append.mp hv with hv | hv
    · have h1 := hrest_count v hv
      have h2 : remCount g sorted v = 0 := inv.queue_zero v (List.mem_cons_of_mem _ hv)
      have := hrc v
      omega
    · obtain ⟨h1, h2⟩ := hnewly_pos v hv
      have := hrc v
      omega
  case queue_node =>
    intro v hv
    rw [hq] at hv
    rcases List.mem_append.mp hv with hv | hv
    · exact inv.queue_node v (List.mem_cons_of_mem _ hv)
    · exact inv_node_of_findVal inv ((hch v).mp hv).1
  case sorted_node =>
    intro v hv
    rcases List.mem_append.mp hv with hv | hv
    · exact inv.sorted_node v hv
    · exact (List.mem_singleton.mp hv) ▸ hu_node
  case sorted_zero =>
    intro v hv
    rcases List.mem_append.mp hv with hv | hv
    · have h1 := inv.sorted_zero v hv
      have h2 := inv_lookup_node inv (inv.sorted_node v hv)
      rw [h1] at h2
      have h3 := (pd_counts hpd v 0 h2).1
      have := hrc v
      omega
    · have hvu := List.mem_singleton.mp hv
      subst hvu
      have := hrc v
      rw [hcnt_u] at this
      omega
  case zero_captured =>
    intro v hv hz
    have hrcv := hrc v
    by_cases hc0 : ds.count v = 0
    · have : remCount g sorted v = 0 := by omega
      rcases inv.zero_captured v hv this with h | h
      · exact Or.inl (List.mem_append_left _ h)
      · rcases List.mem_cons.mp h with h | h
        · exact Or.inl (List.mem_append_right _ (h ▸ List.mem_singleton_self _))
        · exact Or.inr (hq ▸ List.mem_append_left _ h)
    · refine Or.inr (hq ▸ List.mem_append_right _ ?_)
      refine (hch v).mpr ⟨?_, Nat.pos_of_ne_zero hc0⟩
      have h1 := inv_lookup_node inv hv
      rw [h1]
      exact congrArg some (by omega)
  case edge_before =>
    intro a dsa b ha hb hbs
    rcases List.mem_append.mp hbs with hbs | hbs
    · exact (inv.edge_before a dsa b ha hb hbs).trans (List.sublist_append_left _ _)
    · have hbu := List.mem_singleton.mp hbs
      subst hbu
      have has : a ∈ sorted := remCount_eq_zero_elim hcnt_u ha hb
      exact List.Sublist.append (List.singleton_sublist.mpr has) (List.Sublist.refl [b])

/-! ### Running the main loop -/

theorem kahnLoop_nil (g : Graph) (fuel : Nat) (indeg : List (String × Nat))
    (sorted : List String) : kahnLoop g fuel indeg [] sorted = some sorted := by
  cases fuel <;> rfl

theorem kahnLoop_cons (g : Graph) (fuel : Nat) (indeg : List (String × Nat))
    (u : String) (rest sorted : List String) :
    kahnLoop g (fuel + 1) indeg (u :: rest) sorted =
      match findVal g u with
      | none => none
      | some ds =>
        match processDependees ds indeg rest with
        | none => none
        | some (indeg', queue') => kahnLoop g fuel indeg' queue' (sorted ++ [u]) := rfl

theorem kahnLoop_post {g : Graph} (hg : KeysNodup g) :
    ∀ (fuel : Nat) {indeg : List (String × Nat)} {queue sorted out : List String},
      KahnInv g indeg queue sorted →
      kahnLoop g fuel indeg queue sorted = some out →
      ∃ indeg', KahnInv g indeg' [] out := by
  intro fuel
  induction fuel with
  | zero =>
    intro indeg queue sorted out inv h
    cases queue with
    | nil =>
      rw [kahnLoop_nil] at h
      exact ⟨indeg, (Option.some.inj h) ▸ inv⟩
    | cons u rest => exact Option.noConfusion h
  | succ fuel ih =>
    intro indeg queue sorted out inv h
    cases queue with
    | nil =>
      rw [kahnLoop_nil] at h
      exact ⟨indeg, (Option.some.inj h) ▸ inv⟩
    | cons u rest =>
      rw [kahnLoop_cons] at h
      cases hfg : findVal g u with
      | none => rw [hfg] at h; exact Option.noConfusion h
      | some ds =>
        rw [hfg] at h
        simp only [] at h
        cases hpd : processDependees ds indeg rest with
        | none => rw [hpd] at h; exact Option.noConfusion h
        | some p =>
          obtain ⟨indeg1, queue1⟩ := p
          rw [hpd] at h
          simp only [] at h
          exact ih (inv_step hg inv hfg hpd) h

theorem kahnLoop_isSome {g : Graph} (hg : KeysNodup g) (hcl : KeyClosed g) :
    ∀ (fuel : Nat) {indeg : List (String × Nat)} {queue sorted : List String},
      queue.length + sumIndeg indeg ≤ fuel →
      KahnInv g indeg queue sorted →
      ∃ out, kahnLoop g fuel indeg queue sorted = some out := by
  intro fuel
  induction fuel with
  | zero =>
    intro indeg queue sorted hfuel inv
    cases queue with
    | nil => exact ⟨sorted, kahnLoop_nil ..⟩
    | cons u rest => simp at hfuel
  | succ fuel ih =>
    intro indeg queue sorted hfuel inv
    cases queue with
    | nil => exact ⟨sorted, kahnLoop_nil ..⟩
    | cons u rest =>
      have hu_node : isNode g u := inv.queue_node u (List.mem_cons_self ..)
      have hu_key : u ∈ g.map Prod.fst := by
        rcases hu_node with ⟨ds, hm⟩ | ⟨a, ds, hm, hv⟩
        · exact List.mem_map.mpr ⟨(u, ds), hm, rfl⟩
        · obtain ⟨ds', hm'⟩ := hcl a ds u hm hv
          exact List.mem_map.mpr ⟨(u, ds'), hm', rfl⟩
      obtain ⟨ds, hfg⟩ := findVal_isSome_of_mem hu_key
      have hmem_u : (u, ds) ∈ g := mem_of_findVal hfg
      have hu_notin : u ∉ sorted := inv.disj u (List.mem_cons_self ..)
      have hpre : ∀ d ∈ ds, ∃ n, findVal indeg d = some n ∧ ds.count d ≤ n := by
        intro d hd
        have hd_node : isNode g d := Or.inr ⟨u, ds, hmem_u, hd⟩
        refine ⟨remCount g sorted d, inv_lookup_node inv hd_node, ?_⟩
        exact remCount_le sorted d hg hmem_u hu_notin
      obtain ⟨p, hpd⟩ := pd_total rest hpre
      obtain ⟨indeg1, queue1⟩ := p
      have hmeas := pd_measure hpd
      have hfuel1 : queue1.length + sumIndeg indeg1 ≤ fuel := by
        simp only [List.length_cons] at hfuel
        omega
      obtain ⟨out, hout⟩ := ih hfuel1 (inv_step hg inv hfg hpd)
      refine ⟨out, ?_⟩
      rw [kahnLoop_cons, hfg]
      simp only []
      rw [hpd]
      simp only []
      exact hout

/-- The result of the main loop does not depend on the fuel, as long as
the fuel dominates the measure `queue.length + sumIndeg indeg`, which
strictly decreases at every iteration.  This justifies the fuel chosen
in `toposort`. -/
theorem kahnLoop_fuel_irrelevant (g : Graph) :
    ∀ (fuel1 fuel2 : Nat) {indeg : List (String × Nat)} {queue sorted : List String},
      queue.length + sumIndeg indeg ≤ fuel1 →
      queue.length + sumIndeg indeg ≤ fuel2 →
      kahnLoop g fuel1 indeg queue sorted = kahnLoop g fuel2 indeg queue sorted := by
  intro fuel1
  induction fuel1 with
  | zero =>
    intro fuel2 indeg queue sorted h1 h2
    cases queue with
    | nil => rw [kahnLoop_nil, kahnLoop_nil]
    | cons u rest => simp at h1
  | succ fuel1 ih =>
    intro fuel2 indeg queue sorted h1 h2
    cases queue with
    | nil => rw [kahnLoop_nil, kahnLoop_nil]
    | cons u rest =>
      cases fuel2 with
      | zero => simp at h2
      | succ fuel2 =>
        rw [kahnLoop_cons, kahnLoop_cons]
        cases hfg : findVal g u with
        | none => rfl
        | some ds =>
          simp only []
          cases hpd : processDependees ds indeg rest with
          | none => rfl
          | some p =>
            obtain ⟨indeg1, queue1⟩ := p
            simp only []
            have hmeas := pd_measure hpd
            simp only [List.length_cons] at h1 h2
            exact ih fuel2 (by omega) (by omega)

/-- The invariant holds on entry to the main loop. -/
theorem inv_init {g : Graph} (_hg : KeysNodup g) :
    KahnInv g (buildIndegrees g)
      (((buildIndegrees g).filter fun p => p.2 == 0).map Prod.fst) [] := by
  have hbn := keysNodup_buildIndegrees g
  have hseed : ∀ v, v ∈ ((buildIndegrees g).filter fun p => p.2 == 0).map Prod.fst →
      findVal (buildIndegrees g) v = some 0 := by
    intro v hv
    obtain ⟨p, hp, hpv⟩ := List.mem_map.mp hv
    obtain ⟨hp1, hp2⟩ := List.mem_filter.mp hp
    have h0 : p.2 = 0 := by simpa using hp2
    have : findVal (buildIndegrees g) p.1 = some p.2 := by
      refine findVal_of_mem_nodup hbn ?_
      obtain ⟨p1, p2⟩ := p
      exact hp1
    rw [hpv] at this
    rw [this, h0]
  constructor
  case keys_eq => rfl
  case lookup_eq =>
    intro v n h
    rw [findVal_buildIndegrees] at h
    by_cases hc : ∃ e ∈ g, e.1 = v ∨ v ∈ e.2
    · rw [if_pos hc] at h
      rw [remCount_nil]
      exact Option.some.inj h.symm
    · rw [if_neg hc] at h
      exact Option.noConfusion h
  case queue_nodup =>
    have h1 : ((buildIndegrees g).filter fun p => p.2 == 0).map Prod.fst
        |>.Sublist ((buildIndegrees g).map Prod.fst) :=
      (List.filter_sublist _).map Prod.fst
    exact h1.nodup hbn
  case sorted_nodup => exact List.nodup_nil
  case disj => intro v _ hv; simp at hv
  case queue_zero =>
    intro v hv
    have := hseed v hv
    rw [findVal_buildIndegrees] at this
    by_cases hc : ∃ e ∈ g, e.1 = v ∨ v ∈ e.2
    · rw [if_pos hc] at this
      rw [remCount_nil]
      exact Option.some.inj this
    · rw [if_neg hc] at this
      exact Option.noConfusion this
  case queue_node =>
    intro v hv
    obtain ⟨p, hp, hpv⟩ := List.mem_map.mp hv
    have hp1 := (List.mem_filter.mp hp).1
    exact (mem_keys_buildIndegrees g v).mp (List.mem_map.mpr ⟨p, hp1, hpv⟩)
  case sorted_node => intro v hv; simp at hv
  case sorted_zero => intro v hv; simp at hv
  case zero_captured =>
    intro v hv hz
    rw [remCount_nil] at hz
    have hfv : findVal (buildIndegrees g) v = some 0 := by
      rw [findVal_buildIndegrees, if_pos ((isNode_iff g v).mp hv), hz]
    refine Or.inr (List.mem_map.mpr ⟨(v, 0), ?_, rfl⟩)
    refine List.mem_filter.mpr ⟨mem_of_findVal hfv, by simp⟩
  case edge_before => intro a ds b _ _ hb; simp at hb

/-- A successful `toposort` run ends in a state satisfying the
invariant with an empty queue. -/
theorem toposort_post {g : Graph} (hg : KeysNodup g) {out : List String}
    (h : toposort g = some out) : ∃ indeg', KahnInv g indeg' [] out := by
  rw [toposort] at h
  exact kahnLoop_post hg _ (inv_init hg) h

theorem toposort_isSome {g : Graph} (hg : KeysNodup g) (hcl : KeyClosed g) :
    ∃ out, toposort g = some out := by
  obtain ⟨out, h⟩ := kahnLoop_isSome hg hcl _ (le_refl _) (inv_init hg)
  exact ⟨out, by rw [toposort]; exact h⟩

/-! ### From the final state to ordering facts -/

theorem idxOf_lt_of_pair_sublist :
    ∀ {out : List String} {a b : String}, out.Nodup → [a, b].Sublist out →
      idxOf out a < idxOf out b := by
  intro out
  induction out with
  | nil =>
    intro a b _ hsub
    exact absurd (hsub.subset (List.mem_cons_self a [b])) (List.not_mem_nil a)
  | cons x rest ih =>
    intro a b hnd hsub
    have hx_notin := (List.nodup_cons.mp hnd).1
    have hrest_nd := (List.nodup_cons.mp hnd).2
    cases hsub with
    | cons _ hsub' =>
      have ha : a ∈ rest := hsub'.subset (by simp)
      have hb : b ∈ rest := hsub'.subset (by simp)
      have hxa : ¬ x = a := fun h => hx_notin (h ▸ ha)
      have hxb : ¬ x = b := fun h => hx_notin (h ▸ hb)
      rw [idxOf, if_neg hxa, idxOf, if_neg hxb]
      exact Nat.succ_lt_succ (ih hrest_nd hsub')
    | cons₂ _ hsub' =>
      have hb : b ∈ rest := hsub'.subset (by simp)
      have hxb : ¬ x = b := fun h => hx_notin (h ▸ hb)
      rw [idxOf, if_pos rfl, idxOf, if_neg hxb]
      exact Nat.succ_pos _

theorem final_edge_idx {g : Graph} {indeg' : List (String × Nat)} {out : List String}
    (hfin : KahnInv g indeg' [] out) {a b : String} {ds : List String}
    (ha : (a, ds) ∈ g) (hb : b ∈ ds) (hbo : b ∈ out) :
    a ∈ out ∧ idxOf out a < idxOf out b := by
  have hsub := hfin.edge_before a ds b ha hb hbo
  exact ⟨hsub.subset (by simp), idxOf_lt_of_pair_sublist hfin.sorted_nodup hsub⟩

theorem final_transGen_idx {g : Graph} {indeg' : List (String × Nat)} {out : List String}
    (hfin : KahnInv g indeg' [] out) {a b : String}
    (h : Relation.TransGen (Edge g) a b) (hbo : b ∈ out) :
    a ∈ out ∧ idxOf out a < idxOf out b := by
  induction h with
  | single h1 =>
    obtain ⟨ds, hm, hb⟩ := h1
    exact final_edge_idx hfin hm hb hbo
  | tail h1 h2 ih =>
    obtain ⟨ds, hm, hb⟩ := h2
    obtain ⟨hmem, hlt⟩ := final_edge_idx hfin hm hb hbo
    obtain ⟨hmem', hlt'⟩ := ih hmem
    exact ⟨hmem', hlt'.trans hlt⟩

theorem final_cycle_not_mem {g : Graph} {indeg' : List (String × Nat)}
    {out : List String} (hfin : KahnInv g indeg' [] out) {v : String}
    (h : Relation.TransGen (Edge g) v v) : v ∉ out := by
  intro hv
  exact absurd (final_transGen_idx hfin h hv).2 (lt_irrefl _)

/-- A finite set in which every element has a predecessor contains a
cycle. -/
theorem cycle_of_all_pred {g : Graph} :
    ∀ (n : Nat) (S : Finset String), S.card ≤ n →
      (∀ w ∈ S, ∃ a ∈ S, Edge g a w) → S.Nonempty →
      ∃ c, Relation.TransGen (Edge g) c c := by
  intro n
  induction n with
  | zero =>
    intro S hcard hpred hne
    have := Finset.card_pos.mpr hne
    omega
  | succ n ih =>
    intro S hcard hpred hne
    classical
    obtain ⟨v, hv⟩ := hne
    by_cases hvc : Relation.TransGen (Edge g) v v
    · exact ⟨v, hvc⟩
    · obtain ⟨a, haS, hav⟩ := hpred v hv
      have haS' : a ∈ S.filter fun w => Relation.TransGen (Edge g) w v :=
        Finset.mem_filter.mpr ⟨haS, Relation.TransGen.single hav⟩
      refine ih (S.filter fun w => Relation.TransGen (Edge g) w v) ?_ ?_ ⟨a, haS'⟩
      · have hsub : (S.filter fun w => Relation.TransGen (Edge g) w v) ⊆ S.erase v := by
          intro w hw
          obtain ⟨hwS, hwv⟩ := Finset.mem_filter.mp hw
          refine Finset.mem_erase.mpr ⟨?_, hwS⟩
          rintro rfl
          exact hvc hwv
        have h1 := Finset.card_le_card hsub
        have h2 := Finset.card_erase_of_mem hv
        omega
      · intro w hw
        obtain ⟨hwS, hwv⟩ := Finset.mem_filter.mp hw
        obtain ⟨a', ha'S, ha'w⟩ := hpred w hwS
        exact ⟨a', Finset.mem_filter.mpr
          ⟨ha'S, Relation.TransGen.head ha'w hwv⟩, ha'w⟩

/-- In an acyclic graph, a completed run has emitted every node. -/
theorem final_complete {g : Graph} {indeg' : List (String × Nat)}
    {out : List String} (ha : Acyclic g) (hfin : KahnInv g indeg' [] out) :
    ∀ v, isNode g v → v ∈ out := by
  classical
  by_contra hc
  push_neg at hc
  obtain ⟨v, hnode, hvout⟩ := hc
  have hcycle : ∃ c, Relation.TransGen (Edge g) c c := by
    refine cycle_of_all_pred
      (((buildIndegrees g).map Prod.fst).toFinset.filter fun w => w ∉ out).card
      (((buildIndegrees g).map Prod.fst).toFinset.filter fun w => w ∉ out)
      (le_refl _) ?_ ?_
    · intro w hw
      obtain ⟨hwS, hwout⟩ := Finset.mem_filter.mp hw
      have hwnode : isNode g w :=
        (mem_keys_buildIndegrees g w).mp (List.mem_toFinset.mp hwS)
      have hrem : remCount g out w ≠ 0 := by
        intro h0
        rcases hfin.zero_captured w hwnode h0 with h | h
        · exact hwout h
        · simp at h
      obtain ⟨a, ds, hmem, hanotin, hwds⟩ := remCount_pos_elim hrem
      refine ⟨a, Finset.mem_filter.mpr ⟨?_, hanotin⟩, ⟨ds, hmem, hwds⟩⟩
      exact List.mem_toFinset.mpr
        ((mem_keys_buildIndegrees g a).mpr (Or.inl ⟨ds, hmem⟩))
    · refine ⟨v, Finset.mem_filter.mpr ⟨?_, hvout⟩⟩
      exact List.mem_toFinset.mpr ((mem_keys_buildIndegrees g v).mpr hnode)
  obtain ⟨c, hcy⟩ := hcycle
  exact ha c hcy

theorem mem_nodeList (g : Graph) (v : String) :
    v ∈ (g.map Prod.fst ++ (g.map Prod.snd).flatten).dedup ↔ isNode g v := by
  rw [List.mem_dedup, List.mem_append]
  constructor
  · rintro (h | h)
    · obtain ⟨⟨a, ds⟩, he, hv⟩ := List.mem_map.mp h
      exact Or.inl ⟨ds, hv ▸ he⟩
    · obtain ⟨l, hl, hvl⟩ := List.mem_flatten.mp h
      obtain ⟨⟨a, ds⟩, he, hl'⟩ := List.mem_map.mp hl
      refine Or.inr ⟨a, ds, he, ?_⟩
      rw [show ds = l from hl']
      exact hvl
  · rintro (⟨ds, h⟩ | ⟨a, ds, h, hv⟩)
    · exact Or.inl (List.mem_map.mpr ⟨(v, ds), h, rfl⟩)
    · exact Or.inr (List.mem_flatten.mpr ⟨ds, List.mem_map.mpr ⟨(a, ds), h, rfl⟩, hv⟩)

theorem final_length {g : Graph} {indeg' : List (String × Nat)} {out : List String}
    (ha : Acyclic g) (hfin : KahnInv g indeg' [] out) :
    out.length = nodeCount g := by
  have h1 : out.Nodup := hfin.sorted_nodup
  have h2 : ((g.map Prod.fst ++ (g.map Prod.snd).flatten).dedup).Nodup :=
    List.nodup_dedup _
  have hmem : ∀ v, v ∈ out ↔ v ∈ (g.map Prod.fst ++ (g.map Prod.snd).flatten).dedup := by
    intro v
    rw [mem_nodeList]
    exact ⟨fun h => hfin.sorted_node v h, fun h => final_complete ha hfin v h⟩
  have hfs : out.toFinset = ((g.map Prod.fst ++ (g.map Prod.snd).flatten).dedup).toFinset := by
    ext v
    simp only [List.mem_toFinset]
    exact hmem v
  rw [nodeCount, ← List.toFinset_card_of_nodup h1, ← List.toFinset_card_of_nodup h2, hfs]

/-! ### Auxiliary soundness lemmas for concrete inputs -/

theorem keyClosedB_sound {g : Graph} (h : keyClosedB g = true) : KeyClosed g := by
  intro a ds b ha hb
  rw [keyClosedB, List.all_eq_true] at h
  have h1 := h (a, ds) ha
  rw [List.all_eq_true] at h1
  have h2 : b ∈ g.map Prod.fst := by simpa using h1 b hb
  obtain ⟨⟨b', ds'⟩, hmem, hfst⟩ := List.mem_map.mp h2
  refine ⟨ds', ?_⟩
  rwa [show b = b' from hfst.symm]

theorem acyclic_of_rank {g : Graph} (f : String → Nat)
    (hf : ∀ a b, Edge g a b → f a < f b) : Acyclic g := by
  have hT : ∀ a b, Relation.TransGen (Edge g) a b → f a < f b := by
    intro a b h
    induction h with
    | single h1 => exact hf _ _ h1
    | tail h1 h2 ih => exact ih.trans (hf _ _ h2)
  intro v hv
  exact absurd (hT v v hv) (lt_irrefl _)

theorem findVal_insertG (g : Graph) (k k' : String) (v : List String) :
    findVal (insertG g k v) k' = if k = k' then some v else findVal g k' := by
  induction g with
  | nil =>
    by_cases h : k = k' <;> simp [insertG, findVal, h]
  | cons e rest ih =>
    obtain ⟨a, w⟩ := e
    by_cases hak : a = k
    · subst hak
      by_cases hak' : a = k' <;> simp [insertG, findVal, hak']
    · by_cases hak' : a = k'
      · subst hak'
        have hkk' : ¬ k = a := fun hc => hak hc.symm
        simp [insertG, findVal, hak, hkk']
      · simp [insertG, findVal, hak, hak', ih]

theorem loadManifest_append_single (lines : List String) (l : String) :
    loadManifest (lines ++ [l]) =
      insertG (loadManifest lines) (parseLine l).1 (parseLine l).2 := by
  rw [loadManifest, loadManifest, List.foldl_append, List.foldl_cons, List.foldl_nil]

/-! ### The archive name parser round-trip -/

theorem stripPrefixOpt_append (p rest : String) :
    stripPrefixOpt (p ++ rest) p = some rest := by
  rw [stripPrefixOpt]
  have hdata : (p ++ rest).data = p.data ++ rest.data := String.data_append p rest
  rw [hdata]
  rw [if_pos (by rw [List.isPrefixOf_iff_prefix]; exact List.prefix_append _ _)]
  rw [List.drop_left]

theorem stripSuffixOpt_append (rest p : String) :
    stripSuffixOpt (rest ++ p) p = some rest := by
  rw [stripSuffixOpt]
  have hdata : (rest ++ p).data = rest.data ++ p.data := String.data_append rest p
  rw [hdata]
  rw [if_pos (by rw [List.isSuffixOf_iff_suffix]; exact List.suffix_append _ _)]
  have hl : (rest.data ++ p.data).length - p.data.length = rest.data.length := by
    rw [List.length_append]
    omega
  rw [hl, List.take_left]

theorem parse_archive_name_format (id : String) :
    parse_archive_name ("lib" ++ id ++ ".a") = some id := by
  have h1 : stripPrefixOpt ("lib" ++ id ++ ".a") "lib" = some (id ++ ".a") := by
    have : "lib" ++ id ++ ".a" = "lib" ++ (id ++ ".a") := by
      rw [String.append_assoc]
    rw [this, stripPrefixOpt_append]
  rw [parse_archive_name, h1]
  exact stripSuffixOpt_append id ".a"

/-! ### Claim theorems -/

/-- C1: for every input dependency graph (an association list with
distinct keys, modelling the `HashMap`), whenever the sequencer
`toposort` produces an output, the output is a duplicate-free linear
ordering in which, for every edge `A -> B` with both `A` and `B`
occurring in the output, `A` occurs strictly before `B`. -/
theorem toposort_respects_edges (g : Graph) (out : List String)
    (hg : KeysNodup g) (h : toposort g = some out) :
    out.Nodup ∧ ∀ a ds b, (a, ds) ∈ g → b ∈ ds → a ∈ out → b ∈ out →
      idxOf out a < idxOf out b := by
  obtain ⟨indeg', hfin⟩ := toposort_post hg h
  exact ⟨hfin.sorted_nodup,
    fun a ds b ha hb _ hbo => (final_edge_idx hfin ha hb hbo).2⟩

/-- Witness for C1 at the concrete graph `A -> B`. -/
theorem toposort_respects_edges_witness :
    KeysNodup [("A", ["B"]), ("B", [])] ∧
    toposort [("A", ["B"]), ("B", [])] = some ["A", "B"] ∧
    idxOf ["A", "B"] "A" < idxOf ["A", "B"] "B" := by
  refine ⟨by decide, by rfl, ?_⟩
  exact (toposort_respects_edges [("A", ["B"]), ("B", [])] ["A", "B"]
    (by decide) (by rfl)).2 "A" ["B"] "B" (by simp) (by simp) (by simp) (by simp)

/-- C2 counterexample: the acyclic graph with the single entry
`A -> B` (`B` is an edge target but not a map key) has two nodes, yet
`toposort` panics (modelled as `none`) when it dequeues `B` and looks
it up in the graph, so there is no output at all, let alone one of
length two. -/
theorem toposort_incomplete_open_graph :
    KeysNodup [("A", ["B"])] ∧ Acyclic [("A", ["B"])] ∧
    nodeCount [("A", ["B"])] = 2 ∧ toposort [("A", ["B"])] = none := by
  refine ⟨by decide, ?_, by rfl, by rfl⟩
  refine acyclic_of_rank (fun s => if s = "A" then 0 else 1) ?_
  rintro a b ⟨ds, hmem, hb⟩
  simp only [List.mem_singleton, Prod.mk.injEq] at hmem
  obtain ⟨rfl, rfl⟩ := hmem
  simp only [List.mem_singleton] at hb
  subst hb
  decide

/-- C2 (amended): for every acyclic and key-closed dependency graph —
key-closure, i.e. every edge target being a map key, is the extra
hypothesis the code forces — `toposort` returns an output whose length
is the number of nodes (distinct map keys and edge targets), which
contains every node, and in which `index(A) < index(B)` for every
edge `A -> B`. -/
theorem toposort_complete_of_acyclic_closed (g : Graph)
    (hg : KeysNodup g) (hcl : KeyClosed g) (ha : Acyclic g) :
    ∃ out, toposort g = some out ∧ out.length = nodeCount g ∧
      (∀ v, isNode g v → v ∈ out) ∧
      ∀ a ds b, (a, ds) ∈ g → b ∈ ds → idxOf out a < idxOf out b := by
  obtain ⟨out, hout⟩ := toposort_isSome hg hcl
  obtain ⟨indeg', hfin⟩ := toposort_post hg hout
  refine ⟨out, hout, final_length ha hfin,
    fun v hv => final_complete ha hfin v hv, ?_⟩
  intro a ds b hads hb
  have hbo : b ∈ out := final_complete ha hfin b (Or.inr ⟨a, ds, hads, hb⟩)
  exact (final_edge_idx hfin hads hb hbo).2

/-- Witness for the amended C2 at the concrete two-node graph
`A -> B` with `B` present as a key. -/
theorem toposort_complete_of_acyclic_closed_witness :
    ∃ out, toposort [("A", ["B"]), ("B", [])] = some out ∧
      out.length = nodeCount [("A", ["B"]), ("B", [])] ∧
      (∀ v, isNode [("A", ["B"]), ("B", [])] v → v ∈ out) ∧
      ∀ a ds b, (a, ds) ∈ [("A", ["B"]), ("B", [])] → b ∈ ds →
        idxOf out a < idxOf out b := by
  refine toposort_complete_of_acyclic_closed _ (by decide)
    (keyClosedB_sound (by decide)) ?_
  refine acyclic_of_rank (fun s => if s = "A" then 0 else 1) ?_
  rintro a b ⟨ds, hmem, hb⟩
  simp only [List.mem_cons, Prod.mk.injEq, List.not_mem_nil, or_false] at hmem
  rcases hmem with ⟨rfl, rfl⟩ | ⟨rfl, rfl⟩
  · simp only [List.mem_singleton] at hb
    subst hb
    decide
  · simp at hb

/-- C3: the output of `toposort` depends on the incidental iteration
order of the hash map.  The graphs below are permutations of each
other, i.e. the same `HashMap` iterated in two different incidental
orders, yet `toposort` emits the two isolated nodes in two different
orders, because ties among simultaneously-zero-indegree nodes are
broken by map iteration order, not by a fixed deterministic key. -/
theorem toposort_iteration_order_dependent :
    ([("A", []), ("B", [])] : Graph).Perm [("B", []), ("A", [])] ∧
    toposort [("A", []), ("B", [])] = some ["A", "B"] ∧
    toposort [("B", []), ("A", [])] = some ["B", "A"] ∧
    toposort [("A", []), ("B", [])] ≠ toposort [("B", []), ("A", [])] := by
  exact ⟨List.Perm.swap ("B", []) ("A", []) [], by rfl, by rfl, by decide⟩

/-- C10: on every graph in which each library appearing in a successor
list is also a map key (key-closure), `toposort` completes without
panicking: it returns an output.  Together with the counterexample for
C2 this confirms that key-closure is a genuine precondition of the
implementation. -/
theorem toposort_no_abort_of_closed (g : Graph)
    (hg : KeysNodup g) (hcl : KeyClosed g) :
    ∃ out, toposort g = some out :=
  toposort_isSome hg hcl

/-- Witness for C10 at a concrete key-closed graph, including a cyclic
one: key-closure alone already rules out the panic. -/
theorem toposort_no_abort_of_closed_witness :
    ∃ out, toposort [("X", ["Y"]), ("Y", ["X"])] = some out :=
  toposort_no_abort_of_closed [("X", ["Y"]), ("Y", ["X"])] (by decide)
    (keyClosedB_sound (by decide))

/-- C4 counterexample: when no file name in the directory starts with
the unconstrained toolchain prefix `libMLIR`, the scanner
`lib_names_starting_with` does not return an empty set: it takes the
panic branch (modelled as `none`). -/
theorem scan_empty_matches_panics :
    lib_names_starting_with ["libfoo.a"] "libMLIR" ≠ some [] ∧
    lib_names_starting_with ["libfoo.a"] "libMLIR" = none := by
  exact ⟨by decide, by rfl⟩

/-- C4 (amended): the scanner treats every prefix as mandatory.  It
returns an error (panics) exactly when zero file names start with the
prefix — also for the unconstrained toolchain scan — and it never
returns an empty set; the caller never gets to decide about
emptiness. -/
theorem scan_none_iff_no_match (files : List String) (p : String) :
    (lib_names_starting_with files p = none ↔
      ∀ f ∈ files, startsWithD f p = false) ∧
    lib_names_starting_with files p ≠ some [] := by
  have hshow : lib_names_starting_with files p =
      if (files.filter fun f => startsWithD f p).isEmpty then none
      else some (files.filter fun f => startsWithD f p) := rfl
  rw [hshow]
  by_cases h : (files.filter fun f => startsWithD f p).isEmpty
  · rw [if_pos h]
    rw [List.isEmpty_iff, List.filter_eq_nil_iff] at h
    constructor
    · refine iff_of_true rfl ?_
      intro f hf
      simpa using h f hf
    · exact fun hc => Option.noConfusion hc
  · rw [if_neg h]
    constructor
    · constructor
      · intro hc; exact Option.noConfusion hc
      · intro hall
        exfalso
        apply h
        rw [List.isEmpty_iff, List.filter_eq_nil_iff]
        intro f hf
        simp [hall f hf]
    · intro hc
      apply h
      rw [List.isEmpty_iff]
      exact Option.some.inj hc

/-- C5 counterexample: on the graph loaded from the two-line manifest
`"A\tB\tC"`, `"B\tC"`, the sequencer does not yield any ordering: `C`
is an edge target but not a map key, so after emitting `A` and `B` the
loop dequeues `C` and panics on the graph lookup (modelled as
`none`). -/
theorem manifest_example_aborts :
    toposort (loadManifest ["A\tB\tC", "B\tC"]) = none := by rfl

/-- C5 (amended): loading the two-line manifest `"A\tB\tC"`, `"B\tC"`
produces exactly the edges `A -> B`, `A -> C`, `B -> C`; however, the
sequencer panics on that graph (previous theorem).  On the key-closed
extension obtained by adding the line `"C"`, the sequencer yields
`[A, B, C]`, in which `A` is before `B`, `A` is before `C` and `B` is
before `C`. -/
theorem manifest_example_amended :
    loadManifest ["A\tB\tC", "B\tC"] = [("A", ["B", "C"]), ("B", ["C"])] ∧
    toposort (loadManifest ["A\tB\tC", "B\tC", "C"]) = some ["A", "B", "C"] ∧
    idxOf ["A", "B", "C"] "A" < idxOf ["A", "B", "C"] "B" ∧
    idxOf ["A", "B", "C"] "A" < idxOf ["A", "B", "C"] "C" ∧
    idxOf ["A", "B", "C"] "B" < idxOf ["A", "B", "C"] "C" := by
  exact ⟨by rfl, by rfl, by decide, by decide, by decide⟩

/-- C6: on the three-node cycle `X -> Y -> Z -> X` (each node a map
key), `toposort` returns the empty output and no error; and in
general, every node lying on a cycle is never enqueued and is silently
omitted from the output of any successful run. -/
theorem toposort_omits_cycle_nodes :
    toposort [("X", ["Y"]), ("Y", ["Z"]), ("Z", ["X"])] = some [] ∧
    ∀ (g : Graph) (out : List String) (v : String), KeysNodup g →
      toposort g = some out → Relation.TransGen (Edge g) v v → v ∉ out := by
  refine ⟨by rfl, ?_⟩
  intro g out v hg hout hcy
  obtain ⟨indeg', hfin⟩ := toposort_post hg hout
  exact final_cycle_not_mem hfin hcy

/-- Witness for C6: applying the cycle-omission statement to the
three-node cycle itself shows `X` is omitted from its (empty)
output. -/
theorem toposort_omits_cycle_nodes_witness :
    ("X" : String) ∉ ([] : List String) := by
  have hedge1 : Edge [("X", ["Y"]), ("Y", ["Z"]), ("Z", ["X"])] "X" "Y" :=
    ⟨["Y"], by simp, by simp⟩
  have hedge2 : Edge [("X", ["Y"]), ("Y", ["Z"]), ("Z", ["X"])] "Y" "Z" :=
    ⟨["Z"], by simp, by simp⟩
  have hedge3 : Edge [("X", ["Y"]), ("Y", ["Z"]), ("Z", ["X"])] "Z" "X" :=
    ⟨["X"], by simp, by simp⟩
  exact toposort_omits_cycle_nodes.2 [("X", ["Y"]), ("Y", ["Z"]), ("Z", ["X"])]
    [] "X" (by decide) toposort_omits_cycle_nodes.1
    (Relation.TransGen.head hedge1
      (Relation.TransGen.head hedge2 (Relation.TransGen.single hedge3)))

/-- C7: the archive name parser is total and pure — for every input
string it returns exactly one library name or none (it is a Lean
function into `Option`) — and satisfies the round-trip law: parsing
`"lib" ++ id ++ ".a"` returns `some id` for every `id`. -/
theorem parse_archive_name_total_roundtrip :
    (∀ name, parse_archive_name name = none ∨
      ∃ id, parse_archive_name name = some id) ∧
    ∀ id, parse_archive_name ("lib" ++ id ++ ".a") = some id := by
  refine ⟨?_, parse_archive_name_format⟩
  intro name
  cases h : parse_archive_name name with
  | none => exact Or.inl rfl
  | some id => exact Or.inr ⟨id, rfl⟩

/-- C8: for every manifest-derived candidate order (a successful
`toposort` run) and every inventory of the toolchain library
directory, the emitted link directives are exactly the candidates
present in the parsed inventory, in candidate order: a library absent
from the inventory never appears (dropped silently), and the emitted
list is a sublist of the candidate order, so all relative orderings
among present candidates are preserved. -/
theorem run_bindgen_filters (g : Graph) (files ns cands out : List String)
    (h1 : lib_names_starting_with files "libMLIR" = some ns)
    (h2 : toposort g = some cands)
    (h3 : mlirLinkDirectives g files = some out) :
    out.Sublist cands ∧
    ∀ x, x ∈ out ↔ (x ∈ cands ∧ x ∈ ns.filterMap parse_archive_name) := by
  rw [mlirLinkDirectives, h1] at h3
  simp only [] at h3
  rw [h2] at h3
  simp only [] at h3
  have hout : cands.filter
      (fun c => (ns.filterMap parse_archive_name).contains c) = out :=
    Option.some.inj h3
  constructor
  · rw [← hout]
    exact List.filter_sublist _
  · intro x
    rw [← hout, List.mem_filter]
    simp [List.elem_iff]

/-- Witness for C8: with inventory `{libMLIRA.a}` and candidate order
`[MLIRA, MLIRB]`, the emitted list is `[MLIRA]`: `MLIRB` is dropped
and the order is a sublist of the candidates. -/
theorem run_bindgen_filters_witness :
    (["MLIRA"] : List String).Sublist ["MLIRA", "MLIRB"] ∧
    ("MLIRB" ∈ (["MLIRA"] : List String) ↔
      ("MLIRB" ∈ (["MLIRA", "MLIRB"] : List String) ∧
        "MLIRB" ∈ (["libMLIRA.a"] : List String).filterMap parse_archive_name)) := by
  have h := run_bindgen_filters [("MLIRA", []), ("MLIRB", [])] ["libMLIRA.a"]
    ["libMLIRA.a"] ["MLIRA", "MLIRB"] ["MLIRA"] (by rfl) (by rfl) (by rfl)
  exact ⟨h.1, h.2 "MLIRB"⟩

/-- C9: in the manifest loader, each line is trimmed of surrounding
whitespace before being split on tabs — demonstrated by the line
`" A \tB "`, whose leading and trailing whitespace disappears while
the interior space of the first field survives — and when two lines
share the same first field, the later line completely replaces the
earlier entry in the graph (last occurrence wins, no merging). -/
theorem manifest_trim_last_wins :
    (∀ (lines : List String) (l k : String),
      findVal (loadManifest (lines ++ [l])) k =
        if (parseLine l).1 = k then some (parseLine l).2
        else findVal (loadManifest lines) k) ∧
    parseLine " A \tB " = ("A ", ["B"]) := by
  refine ⟨?_, by rfl⟩
  intro lines l k
  rw [loadManifest_append_single, findVal_insertG]
